import Mathlib

/-!
A shallow embedding of `src/rope.rs` from the buffer-the-gap repository: a
B+-tree ("rope") caching byte/char metrics over the chunks of a gap buffer.

Translation conventions:
* Rust `usize` values become `Nat`; no arithmetic here can overflow a `usize`
  in the source's intended regime, and `Nat` subtraction only occurs where the
  source already guarantees no underflow (underflow panics are modelled
  explicitly where they can happen, see `Rope.new`).
* Buffer bytes (`&[u8]`) become `List Nat` (each element a byte value).
* A Rust panic (a failed `assert_eq!`, an out-of-bounds index, an arithmetic
  underflow, a `panic!` or a `todo!`) is modelled as `none` / `Except.error`;
  the `Except.error` payload of `insert` carries the tree state at the moment
  of the panic, so that statements about mutations-before-panic are faithful.
* The Rust `while` loops of `fill_leaves` and `Rope::new` are embedded as
  fuel-indexed recursions; the fuel supplied by the wrappers is provably
  sufficient (every iteration consumes at least one byte / shrinks the layer),
  so the embedding computes exactly the loops' results.
-/

/-- `struct Metrics { bytes: usize, chars: usize }`. -/
structure Metrics where
  bytes : Nat
  chars : Nat
deriving DecidableEq

/-- `impl Add for Metrics`: component-wise addition. -/
instance : Add Metrics := ⟨fun a b => ⟨a.bytes + b.bytes, a.chars + b.chars⟩⟩

instance : Zero Metrics := ⟨⟨0, 0⟩⟩

/-- `impl Default for Metrics` (derived in the source): `{0, 0}`. -/
instance : Inhabited Metrics := ⟨⟨0, 0⟩⟩

@[ext] theorem Metrics.ext (a b : Metrics)
    (h1 : a.bytes = b.bytes) (h2 : a.chars = b.chars) : a = b := by
  cases a; cases b; cases h1; cases h2; rfl

theorem Metrics.add_def (a b : Metrics) :
    a + b = ⟨a.bytes + b.bytes, a.chars + b.chars⟩ := rfl

@[simp] theorem Metrics.bytes_add (a b : Metrics) :
    (a + b).bytes = a.bytes + b.bytes := rfl

@[simp] theorem Metrics.chars_add (a b : Metrics) :
    (a + b).chars = a.chars + b.chars := rfl

theorem Metrics.zero_def : (0 : Metrics) = ⟨0, 0⟩ := rfl

@[simp] theorem Metrics.bytes_zero : (0 : Metrics).bytes = 0 := rfl

@[simp] theorem Metrics.chars_zero : (0 : Metrics).chars = 0 := rfl

theorem Metrics.default_eq_zero : (default : Metrics) = 0 := rfl

/-- The commutative-monoid structure spec §3 ascribes to `Metrics`
(component-wise sum with identity `{0,0}`). -/
instance : AddCommMonoid Metrics where
  add_assoc a b c := by ext <;> simp [Nat.add_assoc]
  zero_add a := by ext <;> simp
  add_zero a := by ext <;> simp
  add_comm a b := by ext <;> simp [Nat.add_comm]
  nsmul := nsmulRec
  nsmul_zero a := rfl
  nsmul_succ n a := rfl

/-- `const MAX: usize = 2` — the maximum number of children of an internal
node and of chunks of a leaf. -/
def MAX : Nat := 2

/-- `const NODE_SIZE: usize = 5` — the target byte size of a chunk during
bulk loading. -/
def NODE_SIZE : Nat := 5

/-- `enum Node { Internal(Internal), Leaf(Leaf) }`, with the fields of
`struct Internal { metrics, children }` and `struct Leaf { data }` inlined
into the constructors. -/
inductive Node where
  | leaf (data : List Metrics)
  | internal (metrics : List Metrics) (children : List Node)

/-- `Node::metrics`: fold the node's own metric entries (an internal node
folds its cached per-child metrics, a leaf folds its chunk metrics) starting
from `Metrics::default()`. -/
def Node.metrics : Node → Metrics
  | .internal ms _ => ms.foldl (· + ·) default
  | .leaf data => data.foldl (· + ·) default

/-- `is_char_boundary`: `(*byte as i8) >= -0x40`, i.e. the byte is ASCII
(`< 128`) or a UTF-8 leading byte (`>= 192`); continuation bytes
(`128..=191`) are not boundaries. -/
def is_char_boundary (byte : Nat) : Bool := byte < 128 || 192 ≤ byte

/-- `bytecount::num_chars`: the number of UTF-8 characters of a byte slice,
counted as the number of non-continuation bytes. -/
def num_chars (l : List Nat) : Nat := l.countP (fun b => is_char_boundary b)

/-- The `while !is_char_boundary(...) { end += 1 }` loop of `fill_leaves`,
expressed on the byte suffix starting at the candidate boundary: the number
of continuation bytes to skip before the next boundary.  Reading past the
end of the buffer yields the default byte `0`, which is a boundary, exactly
as `string.get(end).unwrap_or(&0)` does in the source. -/
def alignOff (l : List Nat) : Nat :=
  match l with
  | [] => 0
  | b :: r => if is_char_boundary b then 0 else alignOff r + 1

/-- The tail of `fill_leaves`'s loop body: append chunk `data` to the last
leaf of `chunks` when it is a leaf with fewer than `MAX` chunks
(`chunks.last_mut()`), otherwise push a fresh one-chunk leaf. -/
def pushChunk : List Node → Metrics → List Node
  | [], data => [Node.leaf [data]]
  | [Node.leaf d], data =>
    if d.length < MAX then [Node.leaf (d ++ [data])]
    else [Node.leaf d, Node.leaf [data]]
  | [n], data => [n, Node.leaf [data]]
  | n :: rest, data => n :: pushChunk rest data

/-- The `while start < string.len()` loop of `fill_leaves`, on the byte
suffix `rem` that starts at `start`.  Each iteration cuts a chunk of
`min NODE_SIZE rem.length` bytes extended forward to the next character
boundary, and appends its `Metrics` via `pushChunk`.  `fuel` bounds the
number of iterations; `fill_leaves` supplies `rem.length`, which suffices
because every iteration consumes at least one byte. -/
def fillLeavesGo (fuel : Nat) (rem : List Nat) (chunks : List Node) : List Node :=
  match fuel with
  | 0 => chunks
  | fuel + 1 =>
    if rem.isEmpty then chunks
    else
      let e0 := min NODE_SIZE rem.length
      let e := e0 + alignOff (rem.drop e0)
      let data : Metrics := ⟨e, num_chars (rem.take e)⟩
      fillLeavesGo fuel (rem.drop e) (pushChunk chunks data)

/-- `fill_leaves(string, chunks)`. -/
def fill_leaves (string : List Nat) (chunks : List Node) : List Node :=
  fillLeavesGo string.length string chunks

/-- `fill_rope_layer(to, from)`: group the nodes of the current layer, in
order, into parent `Internal` nodes.  `fill_vec` moves up to `MAX = 2` nodes
from the front of the iterator into `children`, and the parent's cached
`metrics` are `children.iter().map(|x| x.metrics()).collect()`. -/
def fill_rope_layer : List Node → List Node
  | [] => []
  | [a] => [Node.internal ([a].map Node.metrics) [a]]
  | a :: b :: rest =>
    Node.internal ([a, b].map Node.metrics) [a, b] :: fill_rope_layer rest

/-- The `loop { fill_rope_layer(..); if output.len() == 1 { return } .. }`
of `Rope::new`, with an iteration bound `fuel`; `Rope.new` supplies the
number of bottom-layer nodes, which suffices because each pass at least
halves a layer of two or more nodes.  (On an empty layer the source loops
forever; that case is unreachable from `Rope.new`, and the fuel-exhausted
branch returns a junk empty leaf.) -/
def buildGo (fuel : Nat) (nodes : List Node) : Node :=
  match fuel with
  | 0 => Node.leaf []
  | fuel + 1 =>
    match fill_rope_layer nodes with
    | [r] => r
    | out => buildGo fuel out

/-- `struct Rope { root: Node }`. -/
structure Rope where
  root : Node

/-- `Rope::new(string, gap_start, gap_end)`: cut the pre-gap bytes into leaf
chunks, push the gap chunk `{gap_end - gap_start, 0}` as a fresh one-chunk
leaf, cut the post-gap bytes (which may extend the gap's leaf), then stack
layers until a single root remains.  The source panics when
`gap_start > string.len()` (slice `&string[..gap_start]`), when
`gap_end < gap_start` (usize underflow of `gap_end - gap_start`), or when
`gap_end > string.len()` (slice `&string[gap_end..]`); those panics — the
source has no error type anywhere — are modelled as `none`. -/
def Rope.new (string : List Nat) (gap_start gap_end : Nat) : Option Rope :=
  if gap_start ≤ gap_end ∧ gap_end ≤ string.length then
    let nodes := fill_leaves (string.take gap_start) []
    let gap : Metrics := ⟨gap_end - gap_start, 0⟩
    let nodes := nodes ++ [Node.leaf [gap]]
    let nodes := fill_leaves (string.drop gap_end) nodes
    some ⟨buildGo nodes.length nodes⟩
  else none

mutual
/-- `Node::leaf_search(k)`: returns the leaf reached by the routing descent
(the source returns `&Leaf`; here, its `data`).  `none` models a panic: the
`assert_eq!(children.len(), metrics.len() + 1)` failing, or the fall-through
`children[m]` indexing out of bounds (`m == children.len()`).  Note the
source recurses with the same `k` — it never subtracts a passed sibling's
`metrics[i].bytes`. -/
def Node.leaf_search : Node → Nat → Option (List Metrics)
  | .leaf data, _ => some data
  | .internal ms cs, k =>
    if cs.length = ms.length + 1 then searchKids ms cs k else none

/-- The `for i in 0..(m - 1)` scan of `leaf_search` over the parallel
`metrics`/`children` sequences; exhausting `metrics` reaches the
out-of-bounds `children[m]` fall-through, a panic (`none`). -/
def searchKids : List Metrics → List Node → Nat → Option (List Metrics)
  | [], _, _ => none
  | m :: ms, c :: cs, k =>
    if k ≤ m.bytes then Node.leaf_search c k else searchKids ms cs k
  | _ :: _, [], _ => none
end

/-- The chunk scan of `Node::insert` at a leaf with capacity left: find the
first chunk with `k <= chunk.bytes` (decrementing `k` by the bytes of each
chunk passed over) and add `v` to it in place; `none` models the
`panic!("index was out of bounds")` after an unmatched scan. -/
def leafScan : List Metrics → Nat → Metrics → Option (List Metrics)
  | [], _, _ => none
  | d :: rest, k, v =>
    if k ≤ d.bytes then some ((d + v) :: rest)
    else (leafScan rest (k - d.bytes) v).map (d :: ·)

mutual
/-- `Node::insert(k, v)`.  `Except.ok` is a normal return; `Except.error`
models a panic and carries the tree state visible at the moment of the
panic.  At a leaf: in-place chunk growth via `leafScan` if below capacity,
otherwise the `todo!("split leaf")` panic (before any mutation).  At an
internal node: the `assert_eq!(children.len(), metrics.len() + 1)` (a panic
with the node unchanged when it fails), then the child scan `insertKids`,
every branch of which ends in a panic. -/
def insertGo : Node → Nat → Metrics → Except Node Node
  | .leaf data, k, v =>
    if data.length < MAX then
      match leafScan data k v with
      | some d => Except.ok (Node.leaf d)
      | none => Except.error (Node.leaf data)
    else Except.error (Node.leaf data)
  | .internal ms cs, k, v =>
    if cs.length = ms.length + 1 then
      Except.error (Node.internal ms (insertKids ms cs k v))
    else Except.error (Node.internal ms cs)

/-- The `for i in 0..(m - 1)` scan of `Node::insert`: on the first child with
`k <= metrics[i].bytes` the source runs `children[i].insert(k, v)` and then
hits `todo!("update metrics")` — so the child's new state (mutated in place,
whether its own insert returned or panicked) is visible while the parent's
cached metrics are not refreshed.  Exhausting `metrics` reaches the
out-of-bounds `children[m]` fall-through, a panic with no mutation. -/
def insertKids : List Metrics → List Node → Nat → Metrics → List Node
  | m :: ms, c :: cs, k, v =>
    if k ≤ m.bytes then
      (match insertGo c k v with
       | Except.ok c2 => c2
       | Except.error c2 => c2) :: cs
    else c :: insertKids ms cs k v
  | _, cs, _, _ => cs
end

/-! Derived views of a tree, used to state the spec's invariants. -/

mutual
/-- The chunk `Metrics` of all leaves beneath a node, left to right. -/
def chunkSeq : Node → List Metrics
  | .leaf data => data
  | .internal _ cs => chunkSeqList cs

def chunkSeqList : List Node → List Metrics
  | [] => []
  | c :: cs => chunkSeq c ++ chunkSeqList cs
end

mutual
/-- The `data` sequences of all leaves beneath a node, left to right. -/
def leafSeq : Node → List (List Metrics)
  | .leaf data => [data]
  | .internal _ cs => leafSeqList cs

def leafSeqList : List Node → List (List Metrics)
  | [] => []
  | c :: cs => leafSeq c ++ leafSeqList cs
end

mutual
/-- The exact component-wise sum of all leaf-chunk `Metrics` beneath a node
(computed by recursion, independent of the cached `metrics`). -/
def leafSum : Node → Metrics
  | .leaf data => data.foldl (· + ·) default
  | .internal _ cs => leafSumList cs

def leafSumList : List Node → Metrics
  | [] => default
  | c :: cs => leafSum c + leafSumList cs
end

mutual
/-- Invariant 3 of spec §3 (together with the `len(children) == len(metrics)`
invariant of the data model): at every internal node the `metrics` and
`children` sequences have equal length and `metrics[i]` is the exact sum of
the leaf-chunk `Metrics` of the subtree rooted at `children[i]`. -/
def invB : Node → Bool
  | .leaf _ => true
  | .internal ms cs => invKids ms cs

def invKids : List Metrics → List Node → Bool
  | [], [] => true
  | m :: ms, c :: cs => decide (m = leafSum c) && invB c && invKids ms cs
  | _, _ => false
end

mutual
/-- Invariant 1 of spec §3: `some d` when every leaf beneath the node is at
the same depth `d` below it, `none` otherwise (a childless internal node has
no leaf depth and also yields `none`). -/
def depthB : Node → Option Nat
  | .leaf _ => some 0
  | .internal _ cs =>
    match kidsDepth cs with
    | some d => some (d + 1)
    | none => none

def kidsDepth : List Node → Option Nat
  | [] => none
  | [c] => depthB c
  | c :: cs =>
    match depthB c, kidsDepth cs with
    | some d1, some d2 => if d1 = d2 then some d1 else none
    | _, _ => none
end

mutual
/-- Invariant 2 of spec §3 for non-root nodes, with the source's branching
parameter `t = 1` (so `2t = MAX = 2`): every internal node has between `1`
and `MAX` children. -/
def sizesB : Node → Bool
  | .leaf _ => true
  | .internal _ cs => decide (1 ≤ cs.length) && decide (cs.length ≤ MAX) && sizesKids cs

def sizesKids : List Node → Bool
  | [] => true
  | c :: cs => sizesB c && sizesKids cs
end

/-- Invariant 2 of spec §3 at the root: the root may be a leaf; an internal
root has at least `2` and at most `MAX` children. -/
def rootSizesB : Node → Bool
  | .leaf _ => true
  | .internal _ cs => decide (2 ≤ cs.length) && decide (cs.length ≤ MAX) && sizesKids cs

/-- The structurally representable invariants of spec §3 — (1) uniform leaf
depth, (2) child-count bounds, (3) exact cached metrics.  Invariants (4)
(byte spans partition the buffer) and (5) (spans respect character
boundaries) constrain the external buffer's spans, which the tree does not
store; (4) holds per construction of the chunk sequence and (5) is settled
separately against `Rope.new` (see the boundary theorems below). -/
def sec3Inv (n : Node) : Bool := invB n && rootSizesB n && (depthB n).isSome

def Node.isLeaf : Node → Bool
  | .leaf _ => true
  | .internal _ _ => false

/-- The chunk containing offset `k` per the spec §4.3 scan (inclusive on the
upper edge): index of the first chunk with `k' ≤ chunk.bytes`, where `k'` is
`k` minus the bytes of the chunks passed over. -/
def coveringIndex : List Metrics → Nat → Option Nat
  | [], _ => none
  | d :: rest, k =>
    if k ≤ d.bytes then some 0
    else (coveringIndex rest (k - d.bytes)).map (· + 1)

/-- The chunk sequence that `fill_leaves` cuts from a byte region, with the
leaf-packing abstracted away: one `Metrics` per cut, in order.  (`fuel` as
in `fillLeavesGo`.) -/
def cutChunksGo (fuel : Nat) (rem : List Nat) : List Metrics :=
  match fuel with
  | 0 => []
  | fuel + 1 =>
    if rem.isEmpty then []
    else
      let e0 := min NODE_SIZE rem.length
      let e := e0 + alignOff (rem.drop e0)
      ⟨e, num_chars (rem.take e)⟩ :: cutChunksGo fuel (rem.drop e)

def cutChunks (rem : List Nat) : List Metrics := cutChunksGo rem.length rem

/-- The byte offsets at which the chunks of a chunk sequence end: the
partial sums of their byte counts, shifted by `acc`. -/
def bsums (acc : Nat) : List Metrics → List Nat
  | [] => []
  | m :: r => (acc + m.bytes) :: bsums (acc + m.bytes) r

/-- Claim C7 as stated over a tree indexing buffer `s`: every chunk-end
offset that lies strictly inside the buffer falls on a character boundary
of `s`. -/
def boundsAligned (s : List Nat) (t : Node) : Bool :=
  (bsums 0 (chunkSeq t)).all
    (fun p => decide (s.length ≤ p) || is_char_boundary (s.getD p 0))

/-- Position `p` is a character-boundary position of buffer `s` (its end
included). -/
def alignedPos (s : List Nat) (p : Nat) : Bool :=
  decide (p = s.length) || is_char_boundary (s.getD p 0)

/-- The frame part of claim C6: `t2` is `t1` with `v` added in place to
exactly the chunk of its (single-leaf) data that covers `k`, every other
chunk untouched. -/
def insertFrame (t1 t2 : Node) (k : Nat) (v : Metrics) : Prop :=
  ∃ data j, t1 = Node.leaf data ∧ coveringIndex data k = some j ∧
    j < data.length ∧ t2 = Node.leaf (data.set j (data.getD j default + v))

/-! Basic lemmas about sums and the derived views. -/

theorem foldl_add_eq (d : Metrics) (l : List Metrics) :
    l.foldl (· + ·) d = d + l.sum := by
  induction l generalizing d with
  | nil => simp
  | cons x xs ih => simp [List.foldl_cons, ih, add_assoc]

@[simp] theorem Node.metrics_leaf (data : List Metrics) :
    (Node.leaf data).metrics = data.sum := by
  simp [Node.metrics, foldl_add_eq, Metrics.default_eq_zero]

@[simp] theorem Node.metrics_internal (ms : List Metrics) (cs : List Node) :
    (Node.internal ms cs).metrics = ms.sum := by
  simp [Node.metrics, foldl_add_eq, Metrics.default_eq_zero]

@[simp] theorem leafSum_leaf (data : List Metrics) :
    leafSum (Node.leaf data) = data.sum := by
  simp [leafSum, foldl_add_eq, Metrics.default_eq_zero]

@[simp] theorem leafSum_internal (ms : List Metrics) (cs : List Node) :
    leafSum (Node.internal ms cs) = leafSumList cs := by
  simp [leafSum]

@[simp] theorem chunkSeqList_nil : chunkSeqList [] = [] := rfl

@[simp] theorem chunkSeqList_cons (c : Node) (cs : List Node) :
    chunkSeqList (c :: cs) = chunkSeq c ++ chunkSeqList cs := by
  simp [chunkSeqList]

theorem chunkSeqList_append (l1 l2 : List Node) :
    chunkSeqList (l1 ++ l2) = chunkSeqList l1 ++ chunkSeqList l2 := by
  induction l1 with
  | nil => simp
  | cons c cs ih => simp [ih]

theorem sum_bytes (l : List Metrics) :
    (l.map Metrics.bytes).sum = l.sum.bytes := by
  induction l with
  | nil => simp
  | cons x xs ih => simp [ih]

/-- The pairwise cached-metrics check implies equal lengths and that the
metric sum of the whole `metrics` sequence is the leaf sum of the whole
child sequence. -/
theorem invKids_sum (ms : List Metrics) (cs : List Node)
    (h : invKids ms cs = true) :
    ms.length = cs.length ∧ ms.sum = leafSumList cs := by
  induction ms generalizing cs with
  | nil =>
    cases cs with
    | nil => simp [leafSumList, Metrics.default_eq_zero]
    | cons c cs => simp [invKids] at h
  | cons m ms ih =>
    cases cs with
    | nil => simp [invKids] at h
    | cons c cs =>
      simp only [invKids, Bool.and_eq_true, decide_eq_true_eq] at h
      obtain ⟨⟨hm, _⟩, hrest⟩ := h
      obtain ⟨hlen, hsum⟩ := ih cs hrest
      refine ⟨by simp [hlen], ?_⟩
      simp [leafSumList, hm, hsum, foldl_add_eq]

theorem invKids_len (ms : List Metrics) (cs : List Node)
    (h : invKids ms cs = true) : ms.length = cs.length :=
  (invKids_sum ms cs h).1

/-- The pairwise cached-metrics check, read off at each index. -/
theorem invKids_get (ms : List Metrics) (cs : List Node)
    (h : invKids ms cs = true) :
    ∀ i, i < cs.length → ms.getD i default = leafSum (cs.getD i (Node.leaf [])) := by
  induction ms generalizing cs with
  | nil =>
    cases cs with
    | nil => intro i hi; simp at hi
    | cons c cs => simp [invKids] at h
  | cons m ms ih =>
    cases cs with
    | nil => simp [invKids] at h
    | cons c cs =>
      simp only [invKids, Bool.and_eq_true, decide_eq_true_eq] at h
      obtain ⟨⟨hm, _⟩, hrest⟩ := h
      intro i hi
      cases i with
      | zero => simpa using hm
      | succ i =>
        simp only [List.getD_cons_succ]
        exact ih cs hrest i (by simpa using hi)

/-- A node whose cached metrics are consistent reports, via `Node.metrics`,
exactly the sum of the leaf chunks beneath it. -/
theorem invB_metrics (n : Node) (h : invB n = true) :
    n.metrics = leafSum n := by
  cases n with
  | leaf data => simp
  | internal ms cs =>
    simp only [invB] at h
    simp [(invKids_sum ms cs h).2]

/-- A successful `insert` can only happen at a leaf root: the internal-node
arm of the source always panics (`assert_eq!`, `todo!`, or the out-of-bounds
`children[m]`). -/
theorem insert_ok_shape (t : Node) (k : Nat) (v : Metrics) (t2 : Node)
    (h : insertGo t k v = Except.ok t2) :
    ∃ data d2, t = Node.leaf data ∧ data.length < MAX ∧
      leafScan data k v = some d2 ∧ t2 = Node.leaf d2 := by
  cases t with
  | leaf data =>
    by_cases hlen : data.length < MAX
    · cases hscan : leafScan data k v with
      | none => simp [insertGo, hlen, hscan] at h
      | some d2 =>
        refine ⟨data, d2, rfl, hlen, hscan, ?_⟩
        simp only [insertGo, if_pos hlen, hscan, Except.ok.injEq] at h
        exact h.symm
    · simp [insertGo, hlen] at h
  | internal ms cs =>
    by_cases hlen : cs.length = ms.length + 1 <;> simp [insertGo, hlen] at h

/-- On a tree whose cached metrics are consistent, a panicking `insert`
leaves the tree exactly as it was: the only mutating-then-panicking path
(`children[i].insert(..); todo!(..)`) is guarded by the source's
`assert_eq!(children.len(), metrics.len() + 1)`, which consistency makes
fail first. -/
theorem insert_error_eq (t : Node) (k : Nat) (v : Metrics) (e : Node)
    (hinv : invB t = true) (h : insertGo t k v = Except.error e) : e = t := by
  cases t with
  | leaf data =>
    by_cases hlen : data.length < MAX
    · cases hscan : leafScan data k v with
      | none =>
        simp only [insertGo, if_pos hlen, hscan, Except.error.injEq] at h
        exact h.symm
      | some d2 => simp [insertGo, hlen, hscan] at h
    · simp only [insertGo, if_neg hlen, Except.error.injEq] at h
      exact h.symm
  | internal ms cs =>
    simp only [invB] at hinv
    have hne : ¬ cs.length = ms.length + 1 := by
      have := invKids_len ms cs hinv
      omega
    simp only [insertGo, if_neg hne, Except.error.injEq] at h
    exact h.symm

/-- The leaf chunk scan of `insert` grows exactly the chunk that covers `k`
(per the §4.3 tie-break), leaves every other chunk unchanged, and adds `v`
to the total. -/
theorem leafScan_spec (data : List Metrics) (k : Nat) (v : Metrics)
    (d2 : List Metrics) (h : leafScan data k v = some d2) :
    ∃ j, coveringIndex data k = some j ∧ j < data.length ∧
      d2 = data.set j (data.getD j default + v) ∧ d2.sum = data.sum + v := by
  induction data generalizing k d2 with
  | nil => simp [leafScan] at h
  | cons d rest ih =>
    by_cases hk : k ≤ d.bytes
    · simp only [leafScan, if_pos hk, Option.some.injEq] at h
      refine ⟨0, by simp [coveringIndex, hk], by simp, ?_, ?_⟩
      · simp [← h]
      · simp [← h, add_right_comm]
    · simp only [leafScan, if_neg hk, Option.map_eq_some'] at h
      obtain ⟨r2, hr2, hd2⟩ := h
      obtain ⟨j, hcov, hjlt, hset, hsum⟩ := ih (k - d.bytes) r2 hr2
      refine ⟨j + 1, ?_, by simp [hjlt], ?_, ?_⟩
      · simp [coveringIndex, hk, hcov]
      · simp [← hd2, hset, List.set_cons_succ, List.getD_cons_succ]
      · simp [← hd2, hsum, add_assoc]

/-! Lemmas about `fill_rope_layer` and the layer-stacking loop. -/

theorem layer_metrics_sum (l : List Node) :
    ((fill_rope_layer l).map Node.metrics).sum = (l.map Node.metrics).sum := by
  induction l using fill_rope_layer.induct with
  | case1 => simp [fill_rope_layer]
  | case2 a => simp [fill_rope_layer]
  | case3 a b rest ih => simp [fill_rope_layer, ih, add_assoc]

theorem layer_chunkSeq (l : List Node) :
    chunkSeqList (fill_rope_layer l) = chunkSeqList l := by
  induction l using fill_rope_layer.induct with
  | case1 => simp [fill_rope_layer]
  | case2 a => simp [fill_rope_layer, chunkSeq]
  | case3 a b rest ih => simp [fill_rope_layer, chunkSeq, ih]

theorem layer_invB (l : List Node) (h : ∀ n ∈ l, invB n = true) :
    ∀ n ∈ fill_rope_layer l, invB n = true := by
  induction l using fill_rope_layer.induct with
  | case1 => simp [fill_rope_layer]
  | case2 a =>
    have ha := h a (by simp)
    intro n hn
    simp only [fill_rope_layer, List.mem_singleton] at hn
    subst hn
    simp [invB, invKids, invB_metrics a ha, ha]
  | case3 a b rest ih =>
    have ha := h a (by simp)
    have hb := h b (by simp)
    intro n hn
    simp only [fill_rope_layer, List.mem_cons] at hn
    rcases hn with hn | hn
    · subst hn
      simp [invB, invKids, invB_metrics a ha, invB_metrics b hb, ha, hb]
    · exact ih (fun m hm => h m (by simp [hm])) n hn

theorem layer_depth (l : List Node) (d : Nat)
    (h : ∀ n ∈ l, depthB n = some d) :
    ∀ n ∈ fill_rope_layer l, depthB n = some (d + 1) := by
  induction l using fill_rope_layer.induct with
  | case1 => simp [fill_rope_layer]
  | case2 a =>
    intro n hn
    simp only [fill_rope_layer, List.mem_singleton] at hn
    subst hn
    simp [depthB, kidsDepth, h a (by simp)]
  | case3 a b rest ih =>
    intro n hn
    simp only [fill_rope_layer, List.mem_cons] at hn
    rcases hn with hn | hn
    · subst hn
      simp [depthB, kidsDepth, h a (by simp), h b (by simp)]
    · exact ih (fun m hm => h m (by simp [hm])) n hn

theorem layer_length_le (l : List Node) :
    (fill_rope_layer l).length ≤ l.length := by
  induction l using fill_rope_layer.induct with
  | case1 => simp [fill_rope_layer]
  | case2 a => simp [fill_rope_layer]
  | case3 a b rest ih => simp [fill_rope_layer]; omega

theorem layer_lt (l : List Node) (h : 2 ≤ l.length) :
    (fill_rope_layer l).length < l.length := by
  match l with
  | [] => simp at h
  | [a] => simp at h
  | a :: b :: rest =>
    have := layer_length_le rest
    simp [fill_rope_layer]
    omega

theorem layer_ne_nil (l : List Node) (h : l ≠ []) : fill_rope_layer l ≠ [] := by
  match l with
  | [] => exact absurd rfl h
  | [a] => simp [fill_rope_layer]
  | a :: b :: rest => simp [fill_rope_layer]

/-- The induction principle for the layer-stacking loop of `Rope::new`: a
property preserved by `fill_rope_layer` and held by the members of every
layer transfers to the returned root, provided the fuel covers the initial
layer (each pass strictly shrinks a layer of two or more nodes). -/
theorem buildGo_spec (P : List Node → Prop) (Q : Node → Prop)
    (hstep : ∀ l, P l → P (fill_rope_layer l))
    (hone : ∀ n, P [n] → Q n) :
    ∀ fuel l, l ≠ [] → l.length ≤ fuel → P l → Q (buildGo fuel l) := by
  intro fuel
  induction fuel with
  | zero =>
    intro l hne hlen
    exact absurd (List.length_eq_zero.mp (Nat.le_zero.mp hlen)) hne
  | succ fuel ih =>
    intro l hne hlen hP
    have hPout := hstep l hP
    match hout : fill_rope_layer l with
    | [] => exact absurd hout (layer_ne_nil l hne)
    | [r] =>
      have : buildGo (fuel + 1) l = r := by
        simp [buildGo, hout]
      rw [this]
      exact hone r (hout ▸ hPout)
    | a :: b :: rest =>
      have hstep2 : buildGo (fuel + 1) l = buildGo fuel (a :: b :: rest) := by
        simp [buildGo, hout]
      rw [hstep2]
      have hlen2 : 2 ≤ l.length := by
        match l with
        | [] => exact absurd rfl hne
        | [x] =>
          rw [show fill_rope_layer [x] = [Node.internal ([x].map Node.metrics) [x]] from rfl] at hout
          simp at hout
        | x :: y :: l2 => simp
      have hltl : (fill_rope_layer l).length < l.length := layer_lt l hlen2
      rw [hout] at hltl
      exact ih (a :: b :: rest) (by simp) (by omega) (hout ▸ hPout)

/-! Lemmas about the chunk-cutting loop of `fill_leaves`. -/

theorem alignOff_le (l : List Nat) : alignOff l ≤ l.length := by
  induction l with
  | nil => simp [alignOff]
  | cons b r ih =>
    by_cases hb : is_char_boundary b
    · simp [alignOff, hb]
    · simp [alignOff, hb]; omega

theorem alignOff_spec (l : List Nat) :
    alignOff l = l.length ∨
      (alignOff l < l.length ∧ is_char_boundary (l.getD (alignOff l) 0) = true) := by
  induction l with
  | nil => left; rfl
  | cons b r ih =>
    by_cases hb : is_char_boundary b
    · right
      simp [alignOff, hb]
    · rcases ih with h | ⟨h1, h2⟩
      · left; simp [alignOff, hb, h]
      · right
        constructor
        · simp [alignOff, hb]; omega
        · simpa [alignOff, hb] using h2

/-- One cut of `fill_leaves` consumes at least one byte and at most the rest
of the region. -/
theorem cut_step (rem : List Nat) (h : rem ≠ []) :
    1 ≤ min NODE_SIZE rem.length + alignOff (rem.drop (min NODE_SIZE rem.length)) ∧
    min NODE_SIZE rem.length + alignOff (rem.drop (min NODE_SIZE rem.length)) ≤ rem.length := by
  have hlen : 1 ≤ rem.length := by
    cases rem with
    | nil => exact absurd rfl h
    | cons x xs => simp
  have hns : 1 ≤ NODE_SIZE := by norm_num [NODE_SIZE]
  have h1 : 1 ≤ min NODE_SIZE rem.length := le_min hns hlen
  have h2 : min NODE_SIZE rem.length ≤ rem.length := min_le_right _ _
  have h3 : alignOff (rem.drop (min NODE_SIZE rem.length)) ≤ rem.length - min NODE_SIZE rem.length := by
    have := alignOff_le (rem.drop (min NODE_SIZE rem.length))
    simpa [List.length_drop] using this
  omega

theorem pushChunk_cons (n r : Node) (rest : List Node) (data : Metrics) :
    pushChunk (n :: r :: rest) data = n :: pushChunk (r :: rest) data := by
  cases n <;> rfl

theorem pushChunk_chunkSeq (chunks : List Node) (data : Metrics) :
    chunkSeqList (pushChunk chunks data) = chunkSeqList chunks ++ [data] := by
  induction chunks, data using pushChunk.induct with
  | case1 data => simp [pushChunk, chunkSeq]
  | case2 d data hd => simp [pushChunk, hd, chunkSeq]
  | case3 d data hd => simp [pushChunk, hd, chunkSeq]
  | case4 n data hn =>
    cases n with
    | leaf d => exact absurd rfl (hn d)
    | internal ms cs => simp [pushChunk, chunkSeq]
  | case5 n rest data h1 h2 ih =>
    cases rest with
    | nil => exact absurd rfl h2
    | cons r rest2 =>
      rw [pushChunk_cons]
      simp [ih]

theorem pushChunk_ne_nil (chunks : List Node) (data : Metrics) :
    pushChunk chunks data ≠ [] := by
  induction chunks, data using pushChunk.induct with
  | case1 data => simp [pushChunk]
  | case2 d data hd => simp [pushChunk, hd]
  | case3 d data hd => simp [pushChunk, hd]
  | case4 n data hn =>
    cases n with
    | leaf d => exact absurd rfl (hn d)
    | internal ms cs => simp [pushChunk]
  | case5 n rest data h1 h2 ih =>
    cases rest with
    | nil => exact absurd rfl h2
    | cons r rest2 =>
      rw [pushChunk_cons]
      simp

theorem pushChunk_leaves (chunks : List Node) (data : Metrics)
    (h : ∀ n ∈ chunks, n.isLeaf = true) :
    ∀ n ∈ pushChunk chunks data, n.isLeaf = true := by
  induction chunks, data using pushChunk.induct with
  | case1 data => simp [pushChunk, Node.isLeaf]
  | case2 d data hd => simp [pushChunk, hd, Node.isLeaf]
  | case3 d data hd => simp [pushChunk, hd, Node.isLeaf]
  | case4 n data hn =>
    cases n with
    | leaf d => exact absurd rfl (hn d)
    | internal ms cs =>
      have := h (Node.internal ms cs) (by simp)
      simp [Node.isLeaf] at this
  | case5 n rest data h1 h2 ih =>
    cases rest with
    | nil => exact absurd rfl h2
    | cons r rest2 =>
      intro m hm
      rw [pushChunk_cons] at hm
      rcases List.mem_cons.mp hm with hm | hm
      · exact hm ▸ h n (by simp)
      · exact ih (fun x hx => h x (by simp [hx])) m hm

theorem fillLeavesGo_chunkSeq (fuel : Nat) :
    ∀ (rem : List Nat) (chunks : List Node), rem.length ≤ fuel →
    chunkSeqList (fillLeavesGo fuel rem chunks) =
      chunkSeqList chunks ++ cutChunksGo fuel rem := by
  induction fuel with
  | zero => intro rem chunks hlen; simp [fillLeavesGo, cutChunksGo]
  | succ fuel ih =>
    intro rem chunks hlen
    by_cases hre : rem.isEmpty
    · simp [fillLeavesGo, cutChunksGo, hre]
    · have hne : rem ≠ [] := by simpa [List.isEmpty_iff] using hre
      obtain ⟨hstep1, hstep2⟩ := cut_step rem hne
      simp only [fillLeavesGo, cutChunksGo, hre, if_false, Bool.false_eq_true]
      rw [ih _ _ (by simp [List.length_drop]; omega), pushChunk_chunkSeq]
      simp

theorem fillLeavesGo_ne_nil (fuel : Nat) :
    ∀ (rem : List Nat) (chunks : List Node), chunks ≠ [] →
    fillLeavesGo fuel rem chunks ≠ [] := by
  induction fuel with
  | zero => intro rem chunks h; simpa [fillLeavesGo] using h
  | succ fuel ih =>
    intro rem chunks h
    by_cases hre : rem.isEmpty
    · simpa [fillLeavesGo, hre] using h
    · simp only [fillLeavesGo, hre, if_false, Bool.false_eq_true]
      exact ih _ _ (pushChunk_ne_nil chunks _)

theorem fillLeavesGo_leaves (fuel : Nat) :
    ∀ (rem : List Nat) (chunks : List Node),
    (∀ n ∈ chunks, n.isLeaf = true) →
    ∀ n ∈ fillLeavesGo fuel rem chunks, n.isLeaf = true := by
  induction fuel with
  | zero => intro rem chunks h; simpa [fillLeavesGo] using h
  | succ fuel ih =>
    intro rem chunks h
    by_cases hre : rem.isEmpty
    · simpa [fillLeavesGo, hre] using h
    · simp only [fillLeavesGo, hre, if_false, Bool.false_eq_true]
      exact ih _ _ (pushChunk_leaves chunks _ h)

theorem cutChunks_sum (fuel : Nat) :
    ∀ rem : List Nat, rem.length ≤ fuel →
    (cutChunksGo fuel rem).sum = ⟨rem.length, num_chars rem⟩ := by
  induction fuel with
  | zero =>
    intro rem hlen
    have : rem = [] := List.length_eq_zero.mp (Nat.le_zero.mp hlen)
    subst this
    simp [cutChunksGo, num_chars, Metrics.zero_def]
  | succ fuel ih =>
    intro rem hlen
    by_cases hre : rem.isEmpty
    · have : rem = [] := by simpa [List.isEmpty_iff] using hre
      subst this
      simp [cutChunksGo, num_chars, Metrics.zero_def]
    · have hne : rem ≠ [] := by simpa [List.isEmpty_iff] using hre
      obtain ⟨hstep1, hstep2⟩ := cut_step rem hne
      simp only [cutChunksGo, hre, if_false, Bool.false_eq_true, List.sum_cons]
      rw [ih _ (by simp [List.length_drop]; omega)]
      ext
      · simp [List.length_drop]; omega
      · have := List.take_append_drop
          (min NODE_SIZE rem.length + alignOff (rem.drop (min NODE_SIZE rem.length))) rem
        calc num_chars (rem.take _) + num_chars (rem.drop _)
            = num_chars rem := by
              rw [num_chars, num_chars, num_chars, ← List.countP_append, this]

/-! Lemmas about chunk-end offsets. -/

theorem bsums_shift (a : Nat) (l : List Metrics) :
    ∀ acc : Nat, bsums (a + acc) l = (bsums acc l).map (a + ·) := by
  induction l with
  | nil => intro acc; simp [bsums]
  | cons m r ih =>
    intro acc
    simp only [bsums, List.map_cons]
    rw [Nat.add_assoc, ih (acc + m.bytes)]

theorem bsums_append (l1 l2 : List Metrics) :
    ∀ acc : Nat, bsums acc (l1 ++ l2) =
      bsums acc l1 ++ bsums (acc + (l1.map Metrics.bytes).sum) l2 := by
  induction l1 with
  | nil => intro acc; simp [bsums]
  | cons m r ih =>
    intro acc
    simp only [List.cons_append, bsums, List.map_cons, List.sum_cons, List.append_eq]
    rw [ih (acc + m.bytes), Nat.add_assoc]

/-- Every chunk-end offset produced by the cutting loop is either the end of
the region or a character boundary of the region. -/
theorem cutChunks_bounds (fuel : Nat) :
    ∀ rem : List Nat, rem.length ≤ fuel →
    ∀ p ∈ bsums 0 (cutChunksGo fuel rem),
      p = rem.length ∨ (p < rem.length ∧ is_char_boundary (rem.getD p 0) = true) := by
  induction fuel with
  | zero =>
    intro rem hlen p hp
    simp [cutChunksGo, bsums] at hp
  | succ fuel ih =>
    intro rem hlen p hp
    by_cases hre : rem.isEmpty
    · simp [cutChunksGo, hre, bsums] at hp
    · have hne : rem ≠ [] := by simpa [List.isEmpty_iff] using hre
      obtain ⟨hstep1, hstep2⟩ := cut_step rem hne
      simp only [cutChunksGo, hre, if_false, Bool.false_eq_true, bsums, Nat.zero_add,
        List.mem_cons] at hp
      rcases hp with hp | hp
      · -- the first cut position itself
        subst hp
        rcases alignOff_spec (rem.drop (min NODE_SIZE rem.length)) with ha | ⟨ha1, ha2⟩
        · left
          rw [ha, List.length_drop]
          omega
        · right
          rw [List.length_drop] at ha1
          refine ⟨by omega, ?_⟩
          rw [List.getD_eq_getElem?_getD, ← List.getElem?_drop,
            ← List.getD_eq_getElem?_getD]
          exact ha2
      · -- a later cut position, shifted by the first cut
        have hshift := bsums_shift
          (min NODE_SIZE rem.length + alignOff (rem.drop (min NODE_SIZE rem.length)))
          (cutChunksGo fuel (rem.drop (min NODE_SIZE rem.length +
            alignOff (rem.drop (min NODE_SIZE rem.length))))) 0
        rw [Nat.add_zero] at hshift
        rw [hshift, List.mem_map] at hp
        obtain ⟨q, hq, hpq⟩ := hp
        have hrec := ih (rem.drop (min NODE_SIZE rem.length +
          alignOff (rem.drop (min NODE_SIZE rem.length))))
          (by simp [List.length_drop]; omega) q hq
        rw [List.length_drop] at hrec
        rcases hrec with hq1 | ⟨hq1, hq2⟩
        · left; omega
        · right
          refine ⟨by omega, ?_⟩
          rw [← hpq, List.getD_eq_getElem?_getD, ← List.getElem?_drop,
            ← List.getD_eq_getElem?_getD]
          exact hq2

/-! Composition lemmas about `Rope.new`. -/

/-- The bottom layer of leaves that `Rope::new` assembles before stacking
internal layers. -/
def buildNodes (string : List Nat) (gap_start gap_end : Nat) : List Node :=
  fill_leaves (string.drop gap_end)
    (fill_leaves (string.take gap_start) [] ++ [Node.leaf [⟨gap_end - gap_start, 0⟩]])

theorem rope_new_eq (string : List Nat) (gap_start gap_end : Nat) :
    Rope.new string gap_start gap_end =
      if gap_start ≤ gap_end ∧ gap_end ≤ string.length then
        some ⟨buildGo (buildNodes string gap_start gap_end).length
          (buildNodes string gap_start gap_end)⟩
      else none := rfl

theorem buildNodes_ne_nil (s : List Nat) (gs ge : Nat) : buildNodes s gs ge ≠ [] := by
  unfold buildNodes fill_leaves
  apply fillLeavesGo_ne_nil
  simp

theorem buildNodes_leaves (s : List Nat) (gs ge : Nat) :
    ∀ n ∈ buildNodes s gs ge, n.isLeaf = true := by
  unfold buildNodes fill_leaves
  apply fillLeavesGo_leaves
  intro n hn
  rcases List.mem_append.mp hn with hn | hn
  · exact fillLeavesGo_leaves _ _ _ (by simp) n hn
  · simp only [List.mem_singleton] at hn
    subst hn
    rfl

theorem buildNodes_chunkSeq (s : List Nat) (gs ge : Nat) :
    chunkSeqList (buildNodes s gs ge) =
      cutChunks (s.take gs) ++ ⟨ge - gs, 0⟩ :: cutChunks (s.drop ge) := by
  unfold buildNodes fill_leaves
  rw [fillLeavesGo_chunkSeq _ _ _ (le_refl _), chunkSeqList_append,
    fillLeavesGo_chunkSeq _ _ _ (le_refl _)]
  simp [chunkSeq, cutChunks]

theorem isLeaf_ex (n : Node) (h : n.isLeaf = true) : ∃ d, n = Node.leaf d := by
  cases n with
  | leaf d => exact ⟨d, rfl⟩
  | internal ms cs => simp [Node.isLeaf] at h

theorem leaves_metrics_sum (l : List Node) (h : ∀ n ∈ l, n.isLeaf = true) :
    (l.map Node.metrics).sum = (chunkSeqList l).sum := by
  induction l with
  | nil => simp
  | cons n rest ih =>
    obtain ⟨d, hd⟩ := isLeaf_ex n (h n (by simp))
    subst hd
    simp only [List.map_cons, List.sum_cons, chunkSeqList_cons, List.sum_append,
      Node.metrics_leaf]
    rw [ih (fun m hm => h m (by simp [hm]))]
    rfl

/-- The root of a built rope aggregates exactly the cut chunk sequence. -/
theorem build_root_eq (s : List Nat) (gs ge : Nat) (r : Rope)
    (hg : gs ≤ ge ∧ ge ≤ s.length) (h : Rope.new s gs ge = some r) :
    r.root = buildGo (buildNodes s gs ge).length (buildNodes s gs ge) := by
  rw [rope_new_eq, if_pos hg, Option.some.injEq] at h
  rw [← h]

/-- The leaf chunk sequence of a built rope: the pre-gap cuts, then the gap
chunk, then the post-gap cuts. -/
theorem build_chunkSeq (s : List Nat) (gs ge : Nat) (r : Rope)
    (h1 : gs ≤ ge) (h2 : ge ≤ s.length) (h : Rope.new s gs ge = some r) :
    chunkSeq r.root = cutChunks (s.take gs) ++ ⟨ge - gs, 0⟩ :: cutChunks (s.drop ge) := by
  rw [build_root_eq s gs ge r ⟨h1, h2⟩ h]
  refine buildGo_spec
    (fun l => chunkSeqList l =
      cutChunks (s.take gs) ++ ⟨ge - gs, 0⟩ :: cutChunks (s.drop ge))
    (fun n => chunkSeq n =
      cutChunks (s.take gs) ++ ⟨ge - gs, 0⟩ :: cutChunks (s.drop ge))
    (fun l hl => by dsimp only; rw [layer_chunkSeq]; exact hl)
    (fun n hn => by simpa using hn)
    _ _ (buildNodes_ne_nil s gs ge) (le_refl _) (buildNodes_chunkSeq s gs ge)

theorem invB_of_isLeaf (n : Node) (h : n.isLeaf = true) : invB n = true := by
  obtain ⟨d, hd⟩ := isLeaf_ex n h
  subst hd
  simp [invB]

theorem depthB_of_isLeaf (n : Node) (h : n.isLeaf = true) : depthB n = some 0 := by
  obtain ⟨d, hd⟩ := isLeaf_ex n h
  subst hd
  simp [depthB]

/-- Claim C2: every tree produced by `build`, and every tree reached by a
successful `insert` from a tree with consistent caches, has, at every
internal node, `metrics` and `children` of equal length with `metrics[i]`
the exact component-wise sum of the leaf-chunk `Metrics` of the subtree
rooted at `children[i]` — the third conjunct spells out what the recursive
checker `invB` enforces at each internal node. -/
theorem build_insert_metrics_invariant :
    (∀ (s : List Nat) (gs ge : Nat) (r : Rope),
      Rope.new s gs ge = some r → invB r.root = true) ∧
    (∀ (t : Node) (k : Nat) (v : Metrics) (t2 : Node),
      invB t = true → insertGo t k v = Except.ok t2 → invB t2 = true) ∧
    (∀ (ms : List Metrics) (cs : List Node),
      invB (Node.internal ms cs) = true →
      ms.length = cs.length ∧
        ∀ i, i < cs.length →
          ms.getD i default = leafSum (cs.getD i (Node.leaf []))) := by
  refine ⟨?_, ?_, ?_⟩
  · intro s gs ge r h
    by_cases hg : gs ≤ ge ∧ ge ≤ s.length
    · rw [build_root_eq s gs ge r hg h]
      refine buildGo_spec (fun l => ∀ n ∈ l, invB n = true) (fun n => invB n = true)
        layer_invB (fun n hn => hn n (by simp))
        _ _ (buildNodes_ne_nil s gs ge) (le_refl _) ?_
      exact fun n hn => invB_of_isLeaf n (buildNodes_leaves s gs ge n hn)
    · rw [rope_new_eq, if_neg hg] at h
      cases h
  · intro t k v t2 hinv h
    obtain ⟨data, d2, ht, hlen, hscan, ht2⟩ := insert_ok_shape t k v t2 h
    subst ht2
    simp [invB]
  · intro ms cs h
    simp only [invB] at h
    exact ⟨invKids_len ms cs h, invKids_get ms cs h⟩

/-- Witness for C2 at a concrete build and a concrete insert. -/
theorem build_insert_metrics_invariant_witness :
    invB (Node.internal [⟨1, 1⟩] [Node.leaf [⟨0, 0⟩, ⟨1, 1⟩]]) = true :=
  build_insert_metrics_invariant.1 [97] 0 0
    ⟨Node.internal [⟨1, 1⟩] [Node.leaf [⟨0, 0⟩, ⟨1, 1⟩]]⟩ rfl

/-- Claim C3: for `0 ≤ gap_start ≤ gap_end ≤ len(s)`, the built tree's total
`Metric` is `{bytes: len(s), chars: num_chars(s[..gap_start]) +
num_chars(s[gap_end..])}`. -/
theorem build_total_metrics (s : List Nat) (gs ge : Nat) (r : Rope)
    (h1 : gs ≤ ge) (h2 : ge ≤ s.length) (h : Rope.new s gs ge = some r) :
    r.root.metrics = ⟨s.length, num_chars (s.take gs) + num_chars (s.drop ge)⟩ := by
  rw [build_root_eq s gs ge r ⟨h1, h2⟩ h]
  refine buildGo_spec
    (fun l => (l.map Node.metrics).sum =
      ⟨s.length, num_chars (s.take gs) + num_chars (s.drop ge)⟩)
    (fun n => n.metrics =
      ⟨s.length, num_chars (s.take gs) + num_chars (s.drop ge)⟩)
    (fun l hl => by dsimp only; rw [layer_metrics_sum]; exact hl)
    (fun n hn => by simpa using hn)
    _ _ (buildNodes_ne_nil s gs ge) (le_refl _) ?_
  dsimp only
  rw [leaves_metrics_sum _ (buildNodes_leaves s gs ge), buildNodes_chunkSeq]
  have hgs : gs ≤ s.length := le_trans h1 h2
  have hpre := cutChunks_sum (s.take gs).length (s.take gs) (le_refl _)
  have hpost := cutChunks_sum (s.drop ge).length (s.drop ge) (le_refl _)
  rw [List.sum_append, List.sum_cons]
  rw [cutChunks, hpre, cutChunks, hpost]
  ext
  · simp [List.length_take, List.length_drop]
    omega
  · simp

/-- Witness for C3: `build("abcdef", 2, 4)` yields `total() == {6, 4}`. -/
theorem build_total_metrics_witness :
    Node.metrics (Node.internal [⟨2, 2⟩, ⟨4, 2⟩]
      [Node.leaf [⟨2, 2⟩], Node.leaf [⟨2, 0⟩, ⟨2, 2⟩]]) = ⟨6, 4⟩ :=
  (build_total_metrics [97, 98, 99, 100, 101, 102] 2 4
    ⟨Node.internal [⟨2, 2⟩, ⟨4, 2⟩] [Node.leaf [⟨2, 2⟩], Node.leaf [⟨2, 0⟩, ⟨2, 2⟩]]⟩
    (by norm_num) (by norm_num) rfl).trans (by decide)

/-- Claim C8: every tree produced by `build` has all leaves at the same
depth, and a successful `insert` preserves this (the only inserts that
complete in the source mutate a chunk of a leaf root in place; the splits
the claim mentions are `todo!()` stubs that never complete). -/
theorem build_insert_uniform_depth :
    (∀ (s : List Nat) (gs ge : Nat) (r : Rope),
      Rope.new s gs ge = some r → (depthB r.root).isSome = true) ∧
    (∀ (t : Node) (k : Nat) (v : Metrics) (t2 : Node),
      (depthB t).isSome = true → insertGo t k v = Except.ok t2 →
      (depthB t2).isSome = true) := by
  constructor
  · intro s gs ge r h
    by_cases hg : gs ≤ ge ∧ ge ≤ s.length
    · rw [build_root_eq s gs ge r hg h]
      refine buildGo_spec (fun l => ∃ d, ∀ n ∈ l, depthB n = some d)
        (fun n => (depthB n).isSome = true)
        (fun l hl => by
          obtain ⟨d, hd⟩ := hl
          exact ⟨d + 1, layer_depth l d hd⟩)
        (fun n hn => by
          obtain ⟨d, hd⟩ := hn
          simp [hd n (by simp)])
        _ _ (buildNodes_ne_nil s gs ge) (le_refl _) ?_
      exact ⟨0, fun n hn => depthB_of_isLeaf n (buildNodes_leaves s gs ge n hn)⟩
    · rw [rope_new_eq, if_neg hg] at h
      cases h
  · intro t k v t2 hd h
    obtain ⟨data, d2, ht, hlen, hscan, ht2⟩ := insert_ok_shape t k v t2 h
    subst ht2
    simp [depthB]

/-- Witness for C8 at a concrete build. -/
theorem build_insert_uniform_depth_witness :
    (depthB (Node.internal [⟨1, 1⟩] [Node.leaf [⟨0, 0⟩, ⟨1, 1⟩]])).isSome = true :=
  build_insert_uniform_depth.1 [97] 0 0
    ⟨Node.internal [⟨1, 1⟩] [Node.leaf [⟨0, 0⟩, ⟨1, 1⟩]]⟩ rfl

/-- Claim C5: on a tree satisfying the representable §3 invariants, `insert`
is atomic — it either completes with the invariants intact, or fails with
the tree left exactly as it was (the source's only mutate-then-panic path,
`children[i].insert(k, v); todo!("update metrics")`, sits behind the
`assert_eq!(children.len(), metrics.len() + 1)`, which the equal-length
invariant makes fail first, before any mutation). -/
theorem insert_atomic (t : Node) (k : Nat) (v : Metrics)
    (hinv : sec3Inv t = true) :
    (∀ t2, insertGo t k v = Except.ok t2 → sec3Inv t2 = true) ∧
    (∀ e, insertGo t k v = Except.error e → e = t) := by
  have hB : invB t = true := by
    simp only [sec3Inv, Bool.and_eq_true] at hinv
    exact hinv.1.1
  constructor
  · intro t2 h
    obtain ⟨data, d2, ht, hlen, hscan, ht2⟩ := insert_ok_shape t k v t2 h
    subst ht2
    simp [sec3Inv, invB, rootSizesB, depthB]
  · intro e h
    exact insert_error_eq t k v e hB h

/-- Witness for C5: a concrete in-place insert at a single-leaf tree. -/
theorem insert_atomic_witness : sec3Inv (Node.leaf [⟨2, 2⟩]) = true :=
  (insert_atomic (Node.leaf [⟨1, 1⟩]) 0 ⟨1, 1⟩ (by decide)).1
    (Node.leaf [⟨2, 2⟩]) rfl

/-- Claim C6: a successful `insert(k, v)` adds `v` in place to exactly the
chunk covering `k` (per the §4.3 scan with its inclusive upper-edge
tie-break), leaves every other chunk untouched (`List.set` semantics), and
grows the total by exactly `v` component-wise. -/
theorem insert_frame_total (t : Node) (k : Nat) (v : Metrics) (t2 : Node)
    (hinv : sec3Inv t = true) (hk : k ≤ (Node.metrics t).bytes)
    (h : insertGo t k v = Except.ok t2) :
    Node.metrics t2 = Node.metrics t + v ∧ insertFrame t t2 k v := by
  obtain ⟨data, d2, ht, hlen, hscan, ht2⟩ := insert_ok_shape t k v t2 h
  subst ht
  subst ht2
  obtain ⟨j, hcov, hjlt, hset, hsum⟩ := leafScan_spec data k v d2 hscan
  constructor
  · simp [hsum]
  · exact ⟨data, j, rfl, hcov, hjlt, by rw [hset]⟩

/-- Witness for C6: inserting `{1,1}` at offset `2` of a one-chunk leaf. -/
theorem insert_frame_total_witness :
    Node.metrics (Node.leaf [⟨4, 4⟩]) =
      Node.metrics (Node.leaf [⟨3, 3⟩]) + ⟨1, 1⟩ ∧
    insertFrame (Node.leaf [⟨3, 3⟩]) (Node.leaf [⟨4, 4⟩]) 2 ⟨1, 1⟩ :=
  insert_frame_total (Node.leaf [⟨3, 3⟩]) 2 ⟨1, 1⟩ (Node.leaf [⟨4, 4⟩])
    (by decide) (by decide) rfl

/-- Claim C9 counterexample: `build` of an empty buffer with an empty gap
yields a root that is not a leaf (the layer loop always wraps the bottom
layer in at least one `Internal` node). -/
theorem build_empty_root_not_leaf :
    (Rope.new [] 0 0).map (fun r => r.root.isLeaf) = some false := rfl

/-- Claim C9 amended: `build` of an empty buffer with an empty gap yields a
root that is an `Internal` node with a single leaf child holding one chunk
`{0, 0}` (the gap chunk), not a bare empty leaf. -/
theorem build_empty_root_shape :
    Rope.new [] 0 0 = some ⟨Node.internal [⟨0, 0⟩] [Node.leaf [⟨0, 0⟩]]⟩ := rfl

/-- Claim C10 counterexample: in `build("abcdef", 2, 4)` no leaf of the
final tree consists of the gap chunk `{2, 0}` alone — the post-gap cutting
packs the chunk `{2, 2}` of `"ef"` into the gap's leaf. -/
theorem gap_leaf_not_dedicated :
    (Rope.new [97, 98, 99, 100, 101, 102] 2 4).map
      (fun r => (leafSeq r.root).any (fun d => decide (d = [⟨2, 0⟩]))) =
      some false := rfl

/-- Claim C10 amended: the built tree's chunk sequence always consists of
the pre-gap cuts, then the gap chunk `{gap_end - gap_start, 0}`, then the
post-gap cuts — so the gap chunk sits exactly between the pre-gap and
post-gap chunks (though post-gap chunks may share its leaf), and the tree
never has zero chunks (even an empty build keeps the `{0, 0}` gap chunk). -/
theorem build_gap_chunk_position (s : List Nat) (gs ge : Nat) (r : Rope)
    (h1 : gs ≤ ge) (h2 : ge ≤ s.length) (h : Rope.new s gs ge = some r) :
    chunkSeq r.root =
      cutChunks (s.take gs) ++ ⟨ge - gs, 0⟩ :: cutChunks (s.drop ge) ∧
    chunkSeq r.root ≠ [] := by
  have hc := build_chunkSeq s gs ge r h1 h2 h
  refine ⟨hc, ?_⟩
  rw [hc]
  simp

/-- Witness for C10 at `build("abcdef", 2, 4)`. -/
theorem build_gap_chunk_position_witness :
    chunkSeq (Node.internal [⟨2, 2⟩, ⟨4, 2⟩]
      [Node.leaf [⟨2, 2⟩], Node.leaf [⟨2, 0⟩, ⟨2, 2⟩]]) =
      [⟨2, 2⟩, ⟨2, 0⟩, ⟨2, 2⟩] :=
  ((build_gap_chunk_position [97, 98, 99, 100, 101, 102] 2 4
    ⟨Node.internal [⟨2, 2⟩, ⟨4, 2⟩] [Node.leaf [⟨2, 2⟩], Node.leaf [⟨2, 0⟩, ⟨2, 2⟩]]⟩
    (by norm_num) (by norm_num) rfl).1).trans (by decide)

/-- Claim C1: evaluating the source's `leaf_search` on a built tree.  The
claim describes the spec §4.3 routing (equal-length cached metrics, the
remaining offset decremented past each sibling, returning the covering
chunk); the code instead asserts `children.len() == metrics.len() + 1`,
which construction (one cached metric per child) makes fail on every built
tree, never decrements `k`, and falls through to the out-of-bounds
`children[children.len()]` — here `search(3)` on `build("abcdef", 2, 4)`
panics (`none`) instead of resolving to the covering chunk. -/
theorem leaf_search_panics_on_built_tree :
    (Rope.new [97, 98, 99, 100, 101, 102] 2 4).map
      (fun r => r.root.leaf_search 3) = some none := rfl

/-- Claim C4: the source has no error type at all — malformed input panics
instead of producing `OutOfRange`/`InvalidArgument`.  On `build("abc",0,0)`
(total 3 bytes) `search(4)` and `insert(4, ..)` both panic at the internal
node's `assert_eq!` (modelled `none` / non-`ok`); `build` with the invalid
gap range `2 > 1` panics at the slice `&string[..gap_start]` (modelled
`none`); and even the in-range `search(0)` panics the same way, showing the
failure is an unconditional assertion, not an offset check. -/
theorem no_typed_errors_only_panics :
    (Rope.new [97, 98, 99] 0 0).map (fun r => r.root.leaf_search 4) = some none ∧
    (Rope.new [97, 98, 99] 0 0).map
      (fun r => (insertGo r.root 4 ⟨1, 0⟩).isOk) = some false ∧
    Rope.new [97] 2 1 = none ∧
    (Rope.new [97, 98, 99] 0 0).map (fun r => r.root.leaf_search 0) = some none :=
  ⟨rfl, rfl, rfl, rfl⟩

theorem cutChunks_bounds_all (rem : List Nat) :
    ∀ p ∈ bsums 0 (cutChunks rem),
      p = rem.length ∨ (p < rem.length ∧ is_char_boundary (rem.getD p 0) = true) :=
  cutChunks_bounds rem.length rem (le_refl _)

/-- Claim C7 counterexample: `build([0xC3, 0xA9], 1, 1)` — a gap placed in
the middle of the two-byte encoding of `é` — produces a chunk boundary at
offset 1, whose byte `0xA9` is a continuation byte, so a leaf chunk's span
does cross a multi-byte character encoding. -/
theorem chunk_boundary_misaligned_gap :
    (Rope.new [195, 169] 1 1).map (fun r => boundsAligned [195, 169] r.root) =
      some false := rfl

/-- Claim C7 amended: provided the gap endpoints themselves lie on character
boundaries of the buffer, every chunk-end offset of the built tree that
falls strictly inside the buffer lands on a byte that is ASCII or a UTF-8
leading byte — the boundaries `fill_leaves` chooses are always so aligned
(a candidate falling on a continuation byte is extended forward), and the
only other cut points are the gap endpoints. -/
theorem build_chunk_boundaries_aligned (s : List Nat) (gs ge : Nat) (r : Rope)
    (h1 : gs ≤ ge) (h2 : ge ≤ s.length)
    (hgs : alignedPos s gs = true) (hge : alignedPos s ge = true)
    (h : Rope.new s gs ge = some r) :
    boundsAligned s r.root = true := by
  have hc := build_chunkSeq s gs ge r h1 h2 h
  have hgs_len : gs ≤ s.length := le_trans h1 h2
  have htake_len : (s.take gs).length = gs := by
    simp [List.length_take]
    omega
  have hdrop_len : (s.drop ge).length = s.length - ge := by
    simp [List.length_drop]
  have hbytesA : ((cutChunks (s.take gs)).map Metrics.bytes).sum = gs := by
    rw [sum_bytes, cutChunks, cutChunks_sum _ _ (le_refl _)]
    exact htake_len
  simp only [alignedPos, Bool.or_eq_true, decide_eq_true_eq] at hgs hge
  rw [boundsAligned, hc, List.all_eq_true]
  intro p hp
  simp only [Bool.or_eq_true, decide_eq_true_eq]
  rw [bsums_append] at hp
  rcases List.mem_append.mp hp with hA | hgB
  · -- a pre-gap cut position
    rcases cutChunks_bounds_all (s.take gs) p hA with hp1 | ⟨hp1, hp2⟩
    · rw [htake_len] at hp1
      subst hp1
      rcases hgs with hgs | hgs
      · left; omega
      · right; exact hgs
    · rw [htake_len] at hp1
      right
      have hgetD : (s.take gs).getD p 0 = s.getD p 0 := by
        simp [List.getD_eq_getElem?_getD, List.getElem?_take, hp1]
      rw [← hgetD]
      exact hp2
  · -- the gap end or a post-gap cut position
    rw [Nat.zero_add, hbytesA] at hgB
    simp only [bsums, List.mem_cons] at hgB
    have hge2 : gs + (ge - gs) = ge := by omega
    rw [hge2] at hgB
    rcases hgB with hp1 | hp3
    · subst hp1
      rcases hge with hge | hge
      · left; omega
      · right; exact hge
    · have hsh := bsums_shift ge (cutChunks (s.drop ge)) 0
      rw [Nat.add_zero] at hsh
      rw [hsh, List.mem_map] at hp3
      obtain ⟨q, hq, hpq⟩ := hp3
      rcases cutChunks_bounds_all (s.drop ge) q hq with hq1 | ⟨hq1, hq2⟩
      · left
        rw [hdrop_len] at hq1
        omega
      · right
        rw [hdrop_len] at hq1
        rw [← hpq, List.getD_eq_getElem?_getD, ← List.getElem?_drop,
          ← List.getD_eq_getElem?_getD]
        exact hq2

/-- Witness for C7 at `build("héllo", 0, 0)` (6 bytes, 5 characters). -/
theorem build_chunk_boundaries_aligned_witness :
    boundsAligned [104, 195, 169, 108, 108, 111]
      (Node.internal [⟨5, 4⟩, ⟨1, 1⟩]
        [Node.leaf [⟨0, 0⟩, ⟨5, 4⟩], Node.leaf [⟨1, 1⟩]]) = true :=
  build_chunk_boundaries_aligned [104, 195, 169, 108, 108, 111] 0 0
    ⟨Node.internal [⟨5, 4⟩, ⟨1, 1⟩]
      [Node.leaf [⟨0, 0⟩, ⟨5, 4⟩], Node.leaf [⟨1, 1⟩]]⟩
    (by norm_num) (by norm_num) (by decide) (by decide) rfl
